import Mathlib

/-!
Verification of the recursive divide-and-conquer minimum/maximum selection
algorithm `find_min_max` from `src/test-3/tsk1.py`.

The Python function is embedded as a fuel-indexed Lean function over
`List Int`:

* `fuel` models the Python recursion budget (CPython's recursion limit);
  exhausting it yields `PyErr.recursionError`, exactly as CPython raises
  `RecursionError` when the recursion never reaches a base case.
* List indexing `arr[i]` is embedded with `arr[i]?`; an out-of-bounds access
  yields `PyErr.indexError`, as CPython raises `IndexError`.
* The constructors `invalidRangeError` and `emptySequenceError` are the error
  vocabulary of the design spec (`InvalidRangeError`, `EmptySequenceError`).
  They are part of the error type so that claims about them can be stated;
  the embedded source code never produces them, since the Python source
  performs no input validation.
-/

/-- Errors a call of the embedded Python function can surface.  The first two
are the exceptions the source can actually raise; the last two are the error
kinds named by the design spec, never produced by the source. -/
inductive PyErr where
  | indexError
  | recursionError
  | invalidRangeError
  | emptySequenceError
deriving DecidableEq

/-- Shallow embedding of `find_min_max(arr, low, high)` from
`src/test-3/tsk1.py`, with an explicit recursion budget `fuel`.

Source:
```
def find_min_max(arr, low, high):
    if low == high:
        return arr[low], arr[low]
    if high == low + 1:
        if arr[low] < arr[high]:
            return arr[low], arr[high]
        else:
            return arr[high], arr[low]
    mid = (low + high) // 2
    left_min, left_max = find_min_max(arr, low, mid)
    right_min, right_max = find_min_max(arr, mid + 1, high)
    return min(left_min, right_min), max(left_max, right_max)
```
-/
def find_min_max (fuel : Nat) (arr : List Int) (low high : Nat) :
    Except PyErr (Int × Int) :=
  match fuel with
  | 0 => .error .recursionError
  | fuel + 1 =>
    if low = high then
      match arr[low]? with
      | some x => .ok (x, x)
      | none => .error .indexError
    else if high = low + 1 then
      match arr[low]?, arr[high]? with
      | some a, some b => if a < b then .ok (a, b) else .ok (b, a)
      | _, _ => .error .indexError
    else
      let mid := (low + high) / 2
      match find_min_max fuel arr low mid with
      | .error e => .error e
      | .ok (leftMin, leftMax) =>
        match find_min_max fuel arr (mid + 1) high with
        | .error e => .error e
        | .ok (rightMin, rightMax) =>
          .ok (min leftMin rightMin, max leftMax rightMax)

/-- The same embedding, instrumented to also return the number of element
comparisons performed: the two-element base case does one comparison, the
combine step does two, the one-element base case does none. -/
def find_min_max_count (fuel : Nat) (arr : List Int) (low high : Nat) :
    Except PyErr ((Int × Int) × Nat) :=
  match fuel with
  | 0 => .error .recursionError
  | fuel + 1 =>
    if low = high then
      match arr[low]? with
      | some x => .ok ((x, x), 0)
      | none => .error .indexError
    else if high = low + 1 then
      match arr[low]?, arr[high]? with
      | some a, some b =>
        if a < b then .ok ((a, b), 1) else .ok ((b, a), 1)
      | _, _ => .error .indexError
    else
      let mid := (low + high) / 2
      match find_min_max_count fuel arr low mid with
      | .error e => .error e
      | .ok ((leftMin, leftMax), cl) =>
        match find_min_max_count fuel arr (mid + 1) high with
        | .error e => .error e
        | .ok ((rightMin, rightMax), cr) =>
          .ok ((min leftMin rightMin, max leftMax rightMax), cl + cr + 2)

/-- The sub-sequence `arr[low..high]` (inclusive on both ends), as a list. -/
def sliceRange (arr : List Int) (low high : Nat) : List Int :=
  (arr.drop low).take (high + 1 - low)

/-- Trusted linear-scan reference: a single left-to-right pass tracking both
extrema, against which the divide-and-conquer result is compared. -/
def scan_min_max (l : List Int) : Option (Int × Int) :=
  match l with
  | [] => none
  | x :: xs => some (xs.foldl (fun p y => (min p.1 y, max p.2 y)) (x, x))

/-- Number of element comparisons `find_min_max` performs on a range of span
`d` (that is, `d + 1` elements): `0` for one element, `1` for two, and for a
larger span the two sub-spans produced by the midpoint split plus the two
combine comparisons. -/
def cmpSpan : Nat → Nat
  | 0 => 0
  | 1 => 1
  | d + 2 => cmpSpan ((d + 2) / 2) + cmpSpan ((d + 2) - (d + 2) / 2 - 1) + 2
termination_by d => d
decreasing_by
  all_goals omega

/-- Every natural is below the corresponding power of two; gives a simple
always-sufficient fuel for a range of span `d`. -/
theorem span_lt_two_pow (d : Nat) : d < 2 ^ d := by
  induction d with
  | zero => decide
  | succ d ih =>
    have hp : (2 : Nat) ^ (d + 1) = 2 * 2 ^ d := by ring
    omega

/-- One-element base case of the embedding, for any positive fuel. -/
theorem fmm_single (fuel : Nat) (arr : List Int) (low : Nat) (x : Int)
    (hx : arr[low]? = some x) :
    find_min_max (fuel + 1) arr low low = .ok (x, x) := by
  simp [find_min_max, hx]

/-- Two-element base case of the embedding: the branch on `arr[low] < arr[high]`
returns exactly `(min, max)` of the two values. -/
theorem fmm_pair (fuel : Nat) (arr : List Int) (low : Nat) (a b : Int)
    (ha : arr[low]? = some a) (hb : arr[low + 1]? = some b) :
    find_min_max (fuel + 1) arr low (low + 1) = .ok (min a b, max a b) := by
  have hne : low ≠ low + 1 := by omega
  simp only [find_min_max, if_neg hne, if_pos rfl, ha, hb]
  by_cases hab : a < b
  · simp [hab, min_eq_left hab.le, max_eq_right hab.le]
  · have hba : b ≤ a := le_of_not_lt hab
    simp [hab, min_eq_right hba, max_eq_left hba]

/-- Recursive case of the embedding: with `high > low + 1`, the call splits at
`mid = (low + high) / 2`, recurses on `[low, mid]` and `[mid + 1, high]`, and
combines the sub-results with one `min` and one `max`. -/
theorem fmm_rec (fuel : Nat) (arr : List Int) (low high : Nat)
    (h : low + 1 < high) (lm lM rm rM : Int)
    (hl : find_min_max fuel arr low ((low + high) / 2) = .ok (lm, lM))
    (hr : find_min_max fuel arr ((low + high) / 2 + 1) high = .ok (rm, rM)) :
    find_min_max (fuel + 1) arr low high = .ok (min lm rm, max lM rM) := by
  have h1 : low ≠ high := by omega
  have h2 : high ≠ low + 1 := by omega
  simp only [find_min_max, if_neg h1, if_neg h2, hl, hr]

/-- One-element base case together with its minimum/maximum characterisation. -/
theorem fmm_ok_single (fuel : Nat) (arr : List Int) (low : Nat)
    (h : low < arr.length) :
    ∃ m M, find_min_max (fuel + 1) arr low low = .ok (m, M) ∧
      (∃ i, low ≤ i ∧ i ≤ low ∧ arr[i]? = some m) ∧
      (∃ j, low ≤ j ∧ j ≤ low ∧ arr[j]? = some M) ∧
      (∀ i x, low ≤ i → i ≤ low → arr[i]? = some x → m ≤ x ∧ x ≤ M) := by
  have hx : arr[low]? = some arr[low] := List.getElem?_eq_getElem h
  refine ⟨arr[low], arr[low], fmm_single fuel arr low _ hx,
    ⟨low, le_rfl, le_rfl, hx⟩, ⟨low, le_rfl, le_rfl, hx⟩, ?_⟩
  intro i x hi1 hi2 hix
  have hi : i = low := le_antisymm hi2 hi1
  subst hi
  rw [hx] at hix
  cases hix
  exact ⟨le_rfl, le_rfl⟩

/-- Two-element base case together with its minimum/maximum characterisation. -/
theorem fmm_ok_pair (fuel : Nat) (arr : List Int) (low : Nat)
    (h : low + 1 < arr.length) :
    ∃ m M, find_min_max (fuel + 1) arr low (low + 1) = .ok (m, M) ∧
      (∃ i, low ≤ i ∧ i ≤ low + 1 ∧ arr[i]? = some m) ∧
      (∃ j, low ≤ j ∧ j ≤ low + 1 ∧ arr[j]? = some M) ∧
      (∀ i x, low ≤ i → i ≤ low + 1 → arr[i]? = some x → m ≤ x ∧ x ≤ M) := by
  have hlow : low < arr.length := by omega
  have ha : arr[low]? = some arr[low] := List.getElem?_eq_getElem hlow
  have hb : arr[low + 1]? = some arr[low + 1] := List.getElem?_eq_getElem h
  refine ⟨_, _, fmm_pair fuel arr low _ _ ha hb, ?_, ?_, ?_⟩
  · rcases le_total arr[low] arr[low + 1] with hab | hba
    · exact ⟨low, le_rfl, by omega, by rw [min_eq_left hab]; exact ha⟩
    · exact ⟨low + 1, by omega, le_rfl, by rw [min_eq_right hba]; exact hb⟩
  · rcases le_total arr[low] arr[low + 1] with hab | hba
    · exact ⟨low + 1, by omega, le_rfl, by rw [max_eq_right hab]; exact hb⟩
    · exact ⟨low, le_rfl, by omega, by rw [max_eq_left hba]; exact ha⟩
  · intro i x hi1 hi2 hix
    have hi : i = low ∨ i = low + 1 := by omega
    rcases hi with rfl | rfl
    · rw [ha] at hix
      cases hix
      exact ⟨min_le_left _ _, le_max_left _ _⟩
    · rw [hb] at hix
      cases hix
      exact ⟨min_le_right _ _, le_max_right _ _⟩

/-- Master lemma: on a valid range whose span is below `2 ^ fuel`, the
embedding returns `.ok (m, M)` where `m` and `M` are attained at indices of
`[low, high]` and bound every element of the range. -/
theorem fmm_ok_spec (arr : List Int) :
    ∀ fuel low high, low ≤ high → high < arr.length →
      high - low < 2 ^ fuel →
      ∃ m M, find_min_max (fuel + 1) arr low high = .ok (m, M) ∧
        (∃ i, low ≤ i ∧ i ≤ high ∧ arr[i]? = some m) ∧
        (∃ j, low ≤ j ∧ j ≤ high ∧ arr[j]? = some M) ∧
        (∀ i x, low ≤ i → i ≤ high → arr[i]? = some x → m ≤ x ∧ x ≤ M) := by
  intro fuel
  induction fuel with
  | zero =>
    intro low high h1 h2 h3
    have h0 : (2 : Nat) ^ 0 = 1 := by norm_num
    have heq : high = low := by omega
    subst heq
    exact fmm_ok_single 0 arr high h2
  | succ fuel ih =>
    intro low high h1 h2 h3
    by_cases hc1 : low = high
    · subst hc1
      exact fmm_ok_single (fuel + 1) arr low h2
    · by_cases hc2 : high = low + 1
      · subst hc2
        exact fmm_ok_pair (fuel + 1) arr low h2
      · have hlt : low + 1 < high := by omega
        have hm1 : low ≤ (low + high) / 2 := by omega
        have hm2 : (low + high) / 2 < high := by omega
        have hmlen : (low + high) / 2 < arr.length := by omega
        have hp : (2 : Nat) ^ (fuel + 1) = 2 * 2 ^ fuel := by ring
        have hd1 : (low + high) / 2 - low < 2 ^ fuel := by omega
        have hd2 : high - ((low + high) / 2 + 1) < 2 ^ fuel := by omega
        obtain ⟨lm, lM, hL, hLm, hLM, hLb⟩ := ih low ((low + high) / 2) hm1 hmlen hd1
        obtain ⟨rm, rM, hR, hRm, hRM, hRb⟩ := ih ((low + high) / 2 + 1) high (by omega) h2 hd2
        refine ⟨min lm rm, max lM rM,
          fmm_rec (fuel + 1) arr low high hlt lm lM rm rM hL hR, ?_, ?_, ?_⟩
        · rcases le_total lm rm with hmm | hmm
          · obtain ⟨i, hi1, hi2, hix⟩ := hLm
            exact ⟨i, hi1, by omega, by rw [min_eq_left hmm]; exact hix⟩
          · obtain ⟨i, hi1, hi2, hix⟩ := hRm
            exact ⟨i, by omega, hi2, by rw [min_eq_right hmm]; exact hix⟩
        · rcases le_total lM rM with hMM | hMM
          · obtain ⟨j, hj1, hj2, hjx⟩ := hRM
            exact ⟨j, by omega, hj2, by rw [max_eq_right hMM]; exact hjx⟩
          · obtain ⟨j, hj1, hj2, hjx⟩ := hLM
            exact ⟨j, hj1, by omega, by rw [max_eq_left hMM]; exact hjx⟩
        · intro i x hi1 hi2 hix
          by_cases hside : i ≤ (low + high) / 2
          · obtain ⟨hxl, hxu⟩ := hLb i x hi1 hside hix
            exact ⟨le_trans (min_le_left _ _) hxl, le_trans hxu (le_max_left _ _)⟩
          · obtain ⟨hxl, hxu⟩ := hRb i x (by omega) hi2 hix
            exact ⟨le_trans (min_le_right _ _) hxl, le_trans hxu (le_max_right _ _)⟩

/-- On an in-bounds range the slice has exactly `high + 1 - low` elements. -/
theorem length_sliceRange (arr : List Int) (low high : Nat)
    (h2 : high < arr.length) :
    (sliceRange arr low high).length = high + 1 - low := by
  unfold sliceRange
  rw [List.length_take, List.length_drop]
  omega

/-- Indexing into the slice is indexing into the array, shifted by `low`. -/
theorem getElem?_sliceRange (arr : List Int) (low high k : Nat)
    (hk : k < high + 1 - low) :
    (sliceRange arr low high)[k]? = arr[low + k]? := by
  unfold sliceRange
  rw [List.getElem?_take_of_lt hk, List.getElem?_drop]

/-- Membership in the slice is attainment at some index of `[low, high]`. -/
theorem mem_sliceRange (arr : List Int) (low high : Nat)
    (h2 : high < arr.length) (x : Int) :
    x ∈ sliceRange arr low high ↔
      ∃ i, low ≤ i ∧ i ≤ high ∧ arr[i]? = some x := by
  constructor
  · intro hx
    obtain ⟨k, hk⟩ := List.mem_iff_getElem?.1 hx
    have hklt : k < high + 1 - low := by
      obtain ⟨hlen, _⟩ := List.getElem?_eq_some.1 hk
      rw [length_sliceRange arr low high h2] at hlen
      exact hlen
    refine ⟨low + k, by omega, by omega, ?_⟩
    rw [← getElem?_sliceRange arr low high k hklt]
    exact hk
  · rintro ⟨i, hi1, hi2, hix⟩
    apply List.mem_iff_getElem?.2
    refine ⟨i - low, ?_⟩
    rw [getElem?_sliceRange arr low high (i - low) (by omega)]
    have hof : low + (i - low) = i := by omega
    rw [hof]
    exact hix

/-- The linear-scan fold keeps the running pair a lower/upper bound of the
consumed prefix, with both components attained. -/
theorem foldl_minmax_spec :
    ∀ (xs : List Int) (a b m M : Int),
      xs.foldl (fun p y => (min p.1 y, max p.2 y)) (a, b) = (m, M) →
      (m = a ∨ m ∈ xs) ∧ (M = b ∨ M ∈ xs) ∧ m ≤ a ∧ b ≤ M ∧
        ∀ y ∈ xs, m ≤ y ∧ y ≤ M := by
  intro xs
  induction xs with
  | nil =>
    intro a b m M h
    simp only [List.foldl_nil, Prod.mk.injEq] at h
    obtain ⟨rfl, rfl⟩ := h
    exact ⟨Or.inl rfl, Or.inl rfl, le_rfl, le_rfl, by simp⟩
  | cons y ys ih =>
    intro a b m M h
    simp only [List.foldl_cons] at h
    obtain ⟨hm, hM, hma, hbM, hall⟩ := ih (min a y) (max b y) m M h
    refine ⟨?_, ?_, ?_, ?_, ?_⟩
    · rcases hm with rfl | hmem
      · rcases min_choice a y with hc | hc
        · exact Or.inl hc
        · exact Or.inr (by rw [hc]; exact List.mem_cons_self y ys)
      · exact Or.inr (List.mem_cons_of_mem y hmem)
    · rcases hM with rfl | hmem
      · rcases max_choice b y with hc | hc
        · exact Or.inl hc
        · exact Or.inr (by rw [hc]; exact List.mem_cons_self y ys)
      · exact Or.inr (List.mem_cons_of_mem y hmem)
    · exact le_trans hma (min_le_left a y)
    · exact le_trans (le_max_left b y) hbM
    · intro z hz
      rcases List.mem_cons.1 hz with rfl | hz
      · exact ⟨le_trans hma (min_le_right a _), le_trans (le_max_right b _) hbM⟩
      · exact hall z hz

/-- The linear-scan reference returns an attained lower and upper bound on any
non-empty list. -/
theorem scan_min_max_spec (l : List Int) (hne : l ≠ []) :
    ∃ m M, scan_min_max l = some (m, M) ∧ m ∈ l ∧ M ∈ l ∧
      ∀ x ∈ l, m ≤ x ∧ x ≤ M := by
  match l, hne with
  | x :: xs, _ =>
    rcases hr : xs.foldl (fun p y => (min p.1 y, max p.2 y)) (x, x) with ⟨m, M⟩
    obtain ⟨hm, hM, hmx, hxM, hall⟩ := foldl_minmax_spec xs x x m M hr
    refine ⟨m, M, by simp [scan_min_max, hr], ?_, ?_, ?_⟩
    · rcases hm with rfl | hmem
      · exact List.mem_cons_self m xs
      · exact List.mem_cons_of_mem x hmem
    · rcases hM with rfl | hmem
      · exact List.mem_cons_self M xs
      · exact List.mem_cons_of_mem x hmem
    · intro z hz
      rcases List.mem_cons.1 hz with rfl | hz
      · exact ⟨hmx, hxM⟩
      · exact hall z hz

/-- An attained lower/upper bound pair of a list is unique. -/
theorem minmax_unique (l : List Int) (m M m2 M2 : Int)
    (hm : m ∈ l) (hM : M ∈ l) (hb : ∀ x ∈ l, m ≤ x ∧ x ≤ M)
    (hm2 : m2 ∈ l) (hM2 : M2 ∈ l) (hb2 : ∀ x ∈ l, m2 ≤ x ∧ x ≤ M2) :
    m = m2 ∧ M = M2 :=
  ⟨le_antisymm (hb m2 hm2).1 (hb2 m hm).1,
   le_antisymm (hb2 M hM).2 (hb M2 hM2).2⟩

theorem cmpSpan_zero : cmpSpan 0 = 0 := by
  simp [cmpSpan]

theorem cmpSpan_one : cmpSpan 1 = 1 := by
  simp [cmpSpan]

/-- Unfolding of `cmpSpan` on spans of at least two (three or more elements). -/
theorem cmpSpan_two_le (d : Nat) (h : 2 ≤ d) :
    cmpSpan d = cmpSpan (d / 2) + cmpSpan (d - d / 2 - 1) + 2 := by
  obtain ⟨e, rfl⟩ : ∃ e, d = e + 2 := ⟨d - 2, by omega⟩
  simp only [cmpSpan]

/-- The divide-and-conquer comparison count never exceeds `2 n - 2` for
`n = d + 1` elements. -/
theorem cmpSpan_le (d : Nat) : cmpSpan d ≤ 2 * d := by
  induction d using Nat.strong_induction_on with
  | _ d ih =>
    rcases Nat.lt_or_ge d 2 with hd | hd
    · have : d = 0 ∨ d = 1 := by omega
      rcases this with rfl | rfl
      · simp [cmpSpan_zero]
      · simp [cmpSpan_one]
    · rw [cmpSpan_two_le d hd]
      have h1 := ih (d / 2) (by omega)
      have h2 := ih (d - d / 2 - 1) (by omega)
      omega

/-- For at least two elements the count is strictly below `2 n - 2`. -/
theorem cmpSpan_lt : ∀ d : Nat, 1 ≤ d → cmpSpan d < 2 * d := by
  intro d
  induction d using Nat.strong_induction_on with
  | _ d ih =>
    intro h
    rcases Nat.lt_or_ge d 2 with hd | hd
    · have hone : d = 1 := by omega
      subst hone
      simp [cmpSpan_one]
    · rw [cmpSpan_two_le d hd]
      have h1 := ih (d / 2) (by omega) (by omega)
      have h2 := cmpSpan_le (d - d / 2 - 1)
      omega

/-- On a power-of-two number of elements `n = 2 ^ (k + 1)` the count is
exactly `3 n / 2 - 2`. -/
theorem cmpSpan_pow (k : Nat) : cmpSpan (2 ^ (k + 1) - 1) = 3 * 2 ^ k - 2 := by
  induction k with
  | zero => simpa using cmpSpan_one
  | succ k ih =>
    have hk : (1 : Nat) ≤ 2 ^ k := Nat.one_le_two_pow
    have hp : (2 : Nat) ^ (k + 2) = 2 * 2 ^ (k + 1) := by ring
    have hp2 : (2 : Nat) ^ (k + 1) = 2 * 2 ^ k := by ring
    have hge : 2 ≤ 2 ^ (k + 2) - 1 := by omega
    rw [cmpSpan_two_le (2 ^ (k + 2) - 1) hge]
    have e1 : (2 ^ (k + 2) - 1) / 2 = 2 ^ (k + 1) - 1 := by omega
    have e2 : 2 ^ (k + 2) - 1 - (2 ^ (k + 1) - 1) - 1 = 2 ^ (k + 1) - 1 := by
      omega
    rw [e1, e2, ih]
    omega

/-- Recursive case of the instrumented embedding: the comparison count of the
combined call is the two sub-counts plus the two combine comparisons. -/
theorem fmm_count_rec (fuel : Nat) (arr : List Int) (low high : Nat)
    (h : low + 1 < high) (lm lM rm rM : Int) (cl cr : Nat)
    (hl : find_min_max_count fuel arr low ((low + high) / 2) = .ok ((lm, lM), cl))
    (hr : find_min_max_count fuel arr ((low + high) / 2 + 1) high =
      .ok ((rm, rM), cr)) :
    find_min_max_count (fuel + 1) arr low high =
      .ok ((min lm rm, max lM rM), cl + cr + 2) := by
  have h1 : low ≠ high := by omega
  have h2 : high ≠ low + 1 := by omega
  simp only [find_min_max_count, if_neg h1, if_neg h2, hl, hr]

/-- Master counting lemma: on a valid range of span `d` with sufficient fuel
the instrumented embedding returns some pair together with exactly
`cmpSpan d` element comparisons. -/
theorem fmm_count_spec (arr : List Int) :
    ∀ fuel low high, low ≤ high → high < arr.length →
      high - low < 2 ^ fuel →
      ∃ p, find_min_max_count (fuel + 1) arr low high =
        .ok (p, cmpSpan (high - low)) := by
  intro fuel
  induction fuel with
  | zero =>
    intro low high h1 h2 h3
    have h0 : (2 : Nat) ^ 0 = 1 := by norm_num
    have heq : high = low := by omega
    subst heq
    have hx : arr[high]? = some arr[high] := List.getElem?_eq_getElem h2
    refine ⟨(arr[high], arr[high]), ?_⟩
    simp [find_min_max_count, hx, cmpSpan_zero]
  | succ fuel ih =>
    intro low high h1 h2 h3
    by_cases hc1 : low = high
    · subst hc1
      have hx : arr[low]? = some arr[low] := List.getElem?_eq_getElem h2
      refine ⟨(arr[low], arr[low]), ?_⟩
      simp [find_min_max_count, hx, cmpSpan_zero]
    · by_cases hc2 : high = low + 1
      · subst hc2
        have hlow : low < arr.length := by omega
        have ha : arr[low]? = some arr[low] := List.getElem?_eq_getElem hlow
        have hb : arr[low + 1]? = some arr[low + 1] := List.getElem?_eq_getElem h2
        have hone : low + 1 - low = 1 := by omega
        have hne : low ≠ low + 1 := by omega
        by_cases hab : arr[low] < arr[low + 1]
        · refine ⟨(arr[low], arr[low + 1]), ?_⟩
          simp [find_min_max_count, if_neg hne, ha, hb, hab, hone, cmpSpan_one]
        · refine ⟨(arr[low + 1], arr[low]), ?_⟩
          simp [find_min_max_count, if_neg hne, ha, hb, hab, hone, cmpSpan_one]
      · have hlt : low + 1 < high := by omega
        have hm1 : low ≤ (low + high) / 2 := by omega
        have hm2 : (low + high) / 2 < high := by omega
        have hmlen : (low + high) / 2 < arr.length := by omega
        have hp : (2 : Nat) ^ (fuel + 1) = 2 * 2 ^ fuel := by ring
        have hd1 : (low + high) / 2 - low < 2 ^ fuel := by omega
        have hd2 : high - ((low + high) / 2 + 1) < 2 ^ fuel := by omega
        obtain ⟨⟨lm, lM⟩, hL⟩ := ih low ((low + high) / 2) hm1 hmlen hd1
        obtain ⟨⟨rm, rM⟩, hR⟩ := ih ((low + high) / 2 + 1) high (by omega) h2 hd2
        refine ⟨(min lm rm, max lM rM), ?_⟩
        have hcnt : cmpSpan ((low + high) / 2 - low) +
            cmpSpan (high - ((low + high) / 2 + 1)) + 2 =
            cmpSpan (high - low) := by
          rw [cmpSpan_two_le (high - low) (by omega)]
          have e1 : (high - low) / 2 = (low + high) / 2 - low := by omega
          have e2 : high - low - ((low + high) / 2 - low) - 1 =
              high - ((low + high) / 2 + 1) := by omega
          rw [e1, e2]
        rw [fmm_count_rec (fuel + 1) arr low high hlt lm lM rm rM _ _ hL hR, hcnt]

/-- The result of the embedding does not depend on the recursion budget: once
a budget suffices, every larger budget returns the same pair. -/
theorem fmm_mono (arr : List Int) :
    ∀ fuel fuel2 low high p, fuel ≤ fuel2 →
      find_min_max fuel arr low high = .ok p →
      find_min_max fuel2 arr low high = .ok p := by
  intro fuel
  induction fuel with
  | zero =>
    intro fuel2 low high p _ h
    simp [find_min_max] at h
  | succ fuel ih =>
    intro fuel2 low high p hle h
    obtain ⟨f2, rfl⟩ : ∃ f2, fuel2 = f2 + 1 := ⟨fuel2 - 1, by omega⟩
    have hle2 : fuel ≤ f2 := by omega
    by_cases hc1 : low = high
    · subst hc1
      simp only [find_min_max, if_pos rfl] at h ⊢
      exact h
    · by_cases hc2 : high = low + 1
      · subst hc2
        simp only [find_min_max, if_neg hc1, if_pos rfl] at h ⊢
        exact h
      · simp only [find_min_max, if_neg hc1, if_neg hc2] at h ⊢
        rcases hL : find_min_max fuel arr low ((low + high) / 2) with e | ⟨lm, lM⟩
        · rw [hL] at h
          simp at h
        · rw [hL] at h
          rcases hR : find_min_max fuel arr ((low + high) / 2 + 1) high
            with e | ⟨rm, rM⟩
          · rw [hR] at h
            simp at h
          · rw [hR] at h
            rw [ih f2 low ((low + high) / 2) (lm, lM) hle2 hL,
              ih f2 ((low + high) / 2 + 1) high (rm, rM) hle2 hR]
            exact h

/-- With an inverted range (`high < low`) no base case is ever reached: the
midpoint split keeps the range inverted, so the call exhausts any recursion
budget — the embedding of CPython's `RecursionError`. -/
theorem fmm_inverted (arr : List Int) :
    ∀ fuel low high, high < low →
      find_min_max fuel arr low high = .error .recursionError := by
  intro fuel
  induction fuel with
  | zero =>
    intro low high _
    rfl
  | succ fuel ih =>
    intro low high h
    have h1 : low ≠ high := by omega
    have h2 : high ≠ low + 1 := by omega
    have hmid : (low + high) / 2 < low := by omega
    simp only [find_min_max, if_neg h1, if_neg h2, ih low ((low + high) / 2) hmid]

/-- On the empty sequence every call fails, either by an out-of-bounds access
(`IndexError`) or, for inverted ranges, by exhausting the recursion budget. -/
theorem fmm_empty :
    ∀ fuel low high,
      find_min_max fuel ([] : List Int) low high = .error .indexError ∨
      find_min_max fuel ([] : List Int) low high = .error .recursionError := by
  intro fuel
  induction fuel with
  | zero =>
    intro low high
    exact Or.inr rfl
  | succ fuel ih =>
    intro low high
    by_cases hc1 : low = high
    · left
      simp [find_min_max, hc1]
    · by_cases hc2 : high = low + 1
      · left
        simp [find_min_max, hc1, hc2]
      · rcases ih low ((low + high) / 2) with hL | hL
        · left
          simp only [find_min_max, if_neg hc1, if_neg hc2, hL]
        · right
          simp only [find_min_max, if_neg hc1, if_neg hc2, hL]

/-- Under the precondition `low ≤ high < length`, no call in the recursion
tree ever reaches the out-of-bounds branch of the embedding. -/
theorem fmm_no_oob (arr : List Int) :
    ∀ fuel low high, low ≤ high → high < arr.length →
      find_min_max fuel arr low high ≠ .error .indexError := by
  intro fuel
  induction fuel with
  | zero =>
    intro low high _ _ h
    simp [find_min_max] at h
  | succ fuel ih =>
    intro low high h1 h2 h
    by_cases hc1 : low = high
    · subst hc1
      have hx : arr[low]? = some arr[low] := List.getElem?_eq_getElem h2
      rw [fmm_single fuel arr low _ hx] at h
      simp at h
    · by_cases hc2 : high = low + 1
      · subst hc2
        have hlow : low < arr.length := by omega
        have ha : arr[low]? = some arr[low] := List.getElem?_eq_getElem hlow
        have hb : arr[low + 1]? = some arr[low + 1] := List.getElem?_eq_getElem h2
        rw [fmm_pair fuel arr low _ _ ha hb] at h
        simp at h
      · have hm1 : low ≤ (low + high) / 2 := by omega
        have hm2 : (low + high) / 2 < high := by omega
        have hmlen : (low + high) / 2 < arr.length := by omega
        revert h
        simp only [find_min_max, if_neg hc1, if_neg hc2]
        rcases hL : find_min_max fuel arr low ((low + high) / 2) with e | ⟨lm, lM⟩
        · have hne := ih low ((low + high) / 2) hm1 hmlen
          rw [hL] at hne
          intro hcontra
          exact hne hcontra
        · rcases hR : find_min_max fuel arr ((low + high) / 2 + 1) high
            with e | ⟨rm, rM⟩
          · have hne := ih ((low + high) / 2 + 1) high (by omega) h2
            rw [hR] at hne
            intro hcontra
            exact hne hcontra
          · intro hcontra
            simp at hcontra

example : find_min_max 4 [23, 1, 45, 12, 7, 89, 34, 2, 56, 78, 10, 5] 0 11 = .ok (1, 89) := by rfl

example : find_min_max 1 [(5 : Int), 2] 0 1 = .ok (2, 5) := by rfl

example : find_min_max 5 ([] : List Int) 0 0 = .error .indexError := by rfl

/-- Claim C1: on every non-empty sequence and valid inclusive range, running
`find_min_max` with a sufficient recursion budget returns `.ok (m, M)` where
`m` and `M` both occur in the sub-range `arr[low..high]`, bound every element
of it from below and above (so they are its minimum and maximum), satisfy
`m ≤ M`, and agree with the trusted linear-scan reference over the same
slice. -/
theorem find_min_max_correct (arr : List Int) (low high : Nat)
    (h1 : low ≤ high) (h2 : high < arr.length) :
    ∃ m M, find_min_max (high - low + 1) arr low high = .ok (m, M) ∧
      m ∈ sliceRange arr low high ∧ M ∈ sliceRange arr low high ∧
      (∀ x ∈ sliceRange arr low high, m ≤ x ∧ x ≤ M) ∧ m ≤ M ∧
      scan_min_max (sliceRange arr low high) = some (m, M) := by
  obtain ⟨m, M, hrun, hmem1, hmem2, hbnd⟩ :=
    fmm_ok_spec arr (high - low) low high h1 h2 (span_lt_two_pow (high - low))
  have hmem1s : m ∈ sliceRange arr low high :=
    (mem_sliceRange arr low high h2 m).2 hmem1
  have hmem2s : M ∈ sliceRange arr low high :=
    (mem_sliceRange arr low high h2 M).2 hmem2
  have hbnds : ∀ x ∈ sliceRange arr low high, m ≤ x ∧ x ≤ M := by
    intro x hx
    obtain ⟨i, hi1, hi2, hix⟩ := (mem_sliceRange arr low high h2 x).1 hx
    exact hbnd i x hi1 hi2 hix
  have hne : sliceRange arr low high ≠ [] := by
    intro hemp
    have hlen := length_sliceRange arr low high h2
    rw [hemp] at hlen
    simp at hlen
    omega
  obtain ⟨m2, M2, hscan, hm2, hM2, hb2⟩ := scan_min_max_spec _ hne
  obtain ⟨he1, he2⟩ :=
    minmax_unique _ m M m2 M2 hmem1s hmem2s hbnds hm2 hM2 hb2
  refine ⟨m, M, hrun, hmem1s, hmem2s, hbnds, (hbnds M hmem2s).1, ?_⟩
  rw [he1, he2]
  exact hscan

/-- Concrete instance of `find_min_max_correct`: the spec's sub-range query
`find_min_max(arr, 2, 5)` on the demo array, whose slice is
`[45, 12, 7, 89]`. -/
theorem find_min_max_correct_witness :
    ∃ m M,
      find_min_max (5 - 2 + 1)
        [23, 1, 45, 12, 7, 89, 34, 2, 56, 78, 10, 5] 2 5 = .ok (m, M) ∧
      m ∈ sliceRange [23, 1, 45, 12, 7, 89, 34, 2, 56, 78, 10, 5] 2 5 ∧
      M ∈ sliceRange [23, 1, 45, 12, 7, 89, 34, 2, 56, 78, 10, 5] 2 5 ∧
      (∀ x ∈ sliceRange [23, 1, 45, 12, 7, 89, 34, 2, 56, 78, 10, 5] 2 5,
        m ≤ x ∧ x ≤ M) ∧ m ≤ M ∧
      scan_min_max
        (sliceRange [23, 1, 45, 12, 7, 89, 34, 2, 56, 78, 10, 5] 2 5) =
          some (m, M) :=
  find_min_max_correct [23, 1, 45, 12, 7, 89, 34, 2, 56, 78, 10, 5] 2 5
    (by decide) (by decide)

/-- Counterexample to claim C2 as stated: the source performs no range
validation, so `find_min_max(arr, 5, 2)` exhausts the recursion budget (the
embedding of CPython raising `RecursionError`) instead of failing with
`InvalidRangeError`. -/
theorem find_min_max_invalid_range_cex :
    find_min_max 50 [23, 1, 45, 12, 7, 89] 5 2 =
      .error PyErr.recursionError := by rfl

/-- Claim C2 amended: on every invocation with `low > high` the code never
reaches a base case — the midpoint split keeps the range inverted — and fails
by exhausting any recursion budget (`RecursionError`), not with
`InvalidRangeError`; an out-of-bounds index with `low ≤ high` instead surfaces
as an `IndexError`, as on `find_min_max([1, 2], 0, 5)`. -/
theorem find_min_max_invalid_range_behavior :
    (∀ (fuel : Nat) (arr : List Int) (low high : Nat), high < low →
      find_min_max fuel arr low high = .error PyErr.recursionError) ∧
    find_min_max 10 [(1 : Int), 2] 0 5 = .error PyErr.indexError :=
  ⟨fun fuel arr low high h => fmm_inverted arr fuel low high h, by rfl⟩

/-- Concrete instance of `find_min_max_invalid_range_behavior` at the spec's
example call `find_min_max(arr, 5, 2)`. -/
theorem find_min_max_invalid_range_behavior_witness :
    find_min_max 7 [(23 : Int), 1, 45] 5 2 = .error PyErr.recursionError :=
  find_min_max_invalid_range_behavior.1 7 [23, 1, 45] 5 2 (by decide)

/-- Counterexample to claim C3 as stated: on the empty sequence the call
fails with `IndexError`, not with `EmptySequenceError` (which the source
never raises). -/
theorem find_min_max_empty_cex :
    find_min_max 5 ([] : List Int) 0 0 = .error PyErr.indexError := by rfl

/-- Claim C3 amended: every call on the empty sequence fails — with
`IndexError`, or with `RecursionError` when the range is inverted — and never
with the spec's `EmptySequenceError`, which the source does not implement. -/
theorem find_min_max_empty_behavior :
    ∀ fuel low high,
      (find_min_max fuel ([] : List Int) low high = .error PyErr.indexError ∨
       find_min_max fuel ([] : List Int) low high =
         .error PyErr.recursionError) ∧
      find_min_max fuel ([] : List Int) low high ≠
        .error PyErr.emptySequenceError := by
  intro fuel low high
  refine ⟨fmm_empty fuel low high, ?_⟩
  rcases fmm_empty fuel low high with h | h <;> rw [h] <;> simp

/-- Concrete instance of `find_min_max_empty_behavior`. -/
theorem find_min_max_empty_behavior_witness :
    (find_min_max 5 ([] : List Int) 1 1 = .error PyErr.indexError ∨
     find_min_max 5 ([] : List Int) 1 1 = .error PyErr.recursionError) ∧
    find_min_max 5 ([] : List Int) 1 1 ≠ .error PyErr.emptySequenceError :=
  find_min_max_empty_behavior 5 1 1

/-- Counterexample to claim C4 as stated: for `n = 6` elements over
`[0, 5]` the code performs `8` element comparisons, whereas
`3 * 6 / 2 - 2 = 7`; the "exactly `3 n / 2 - 2` for even `n`" part fails off
powers of two. -/
theorem find_min_max_count_even_cex :
    find_min_max_count 6 [(23 : Int), 1, 45, 12, 7, 89] 0 5 =
      .ok ((1, 89), 8) ∧ (3 * 6 / 2 - 2 : Nat) = 7 :=
  ⟨by rfl, by rfl⟩

/-- Claim C4 amended: on a valid range of `n = high - low + 1` elements the
instrumented code performs exactly `cmpSpan (high - low)` comparisons; the
count never exceeds `2 n - 2`, is strictly fewer than `2 n - 2` once `n ≥ 2`
(beating the naive double scan), and equals `3 n / 2 - 2` exactly when `n` is
a power of two `2 ^ (k + 1)`; for other even `n` it can exceed `3 n / 2 - 2`
(8 versus 7 at `n = 6`) while staying within the `2 n - 2` bound. -/
theorem find_min_max_comparison_bounds (arr : List Int) (low high : Nat)
    (h1 : low ≤ high) (h2 : high < arr.length) :
    ∃ p, find_min_max_count (high - low + 1) arr low high =
        .ok (p, cmpSpan (high - low)) ∧
      cmpSpan (high - low) ≤ 2 * (high - low + 1) - 2 ∧
      (low < high → cmpSpan (high - low) < 2 * (high - low + 1) - 2) ∧
      ∀ k : Nat, high - low + 1 = 2 ^ (k + 1) →
        cmpSpan (high - low) = 3 * 2 ^ k - 2 := by
  obtain ⟨p, hp⟩ :=
    fmm_count_spec arr (high - low) low high h1 h2 (span_lt_two_pow _)
  refine ⟨p, hp, ?_, ?_, ?_⟩
  · have := cmpSpan_le (high - low)
    omega
  · intro hlh
    have := cmpSpan_lt (high - low) (by omega)
    omega
  · intro k hk
    have hd : high - low = 2 ^ (k + 1) - 1 := by omega
    rw [hd]
    exact cmpSpan_pow k

/-- Concrete instance of `find_min_max_comparison_bounds` on four elements
(`n = 4 = 2 ^ 2`, count `4 = 3 * 4 / 2 - 2`). -/
theorem find_min_max_comparison_bounds_witness :
    ∃ p, find_min_max_count (3 - 0 + 1) [(23 : Int), 1, 45, 12] 0 3 =
        .ok (p, cmpSpan (3 - 0)) ∧
      cmpSpan (3 - 0) ≤ 2 * (3 - 0 + 1) - 2 ∧
      (0 < 3 → cmpSpan (3 - 0) < 2 * (3 - 0 + 1) - 2) ∧
      ∀ k : Nat, 3 - 0 + 1 = 2 ^ (k + 1) →
        cmpSpan (3 - 0) = 3 * 2 ^ k - 2 :=
  find_min_max_comparison_bounds [23, 1, 45, 12] 0 3 (by decide) (by decide)

/-- Claim C5: in the recursive case (`high > low + 1`) the function splits at
`mid = (low + high) / 2` (integer floor division), and its result is exactly
`(min left_min right_min, max left_max right_max)` of the two recursive
sub-results on `[low, mid]` and `[mid + 1, high]`. -/
theorem find_min_max_recursive_case (fuel : Nat) (arr : List Int)
    (low high : Nat) (h : low + 1 < high) (lm lM rm rM : Int)
    (hl : find_min_max fuel arr low ((low + high) / 2) = .ok (lm, lM))
    (hr : find_min_max fuel arr ((low + high) / 2 + 1) high = .ok (rm, rM)) :
    find_min_max (fuel + 1) arr low high = .ok (min lm rm, max lM rM) :=
  fmm_rec fuel arr low high h lm lM rm rM hl hr

/-- Concrete instance of `find_min_max_recursive_case` on `[3, 1, 2]` over
`[0, 2]`, split into `[0, 1]` and `[2, 2]`. -/
theorem find_min_max_recursive_case_witness :
    find_min_max 2 [(3 : Int), 1, 2] 0 2 = .ok (min 1 2, max 3 2) :=
  find_min_max_recursive_case 1 [3, 1, 2] 0 2 (by omega) 1 3 2 2 rfl rfl

/-- Claim C6: the one-element base case returns the element twice:
`find_min_max(S, low, low) = (S[low], S[low])` whenever index `low` exists,
and in particular `find_min_max([x], 0, 0) = (x, x)` for every `x`. -/
theorem find_min_max_single_element :
    (∀ (fuel : Nat) (arr : List Int) (low : Nat) (x : Int),
      arr[low]? = some x →
      find_min_max (fuel + 1) arr low low = .ok (x, x)) ∧
    ∀ x : Int, find_min_max 1 [x] 0 0 = .ok (x, x) :=
  ⟨fun fuel arr low x hx => fmm_single fuel arr low x hx, fun _ => rfl⟩

/-- Concrete instance of `find_min_max_single_element`. -/
theorem find_min_max_single_element_witness :
    find_min_max 4 [(7 : Int)] 0 0 = .ok (7, 7) :=
  find_min_max_single_element.1 3 [7] 0 7 rfl

/-- Claim C7: the two-element base case compares the two values directly and
returns `(smaller, larger)` whatever their order in the sequence; in
particular both `[5, 2]` and `[2, 5]` over range `[0, 1]` yield `(2, 5)`. -/
theorem find_min_max_two_elements :
    (∀ (fuel : Nat) (arr : List Int) (low : Nat) (a b : Int),
      arr[low]? = some a → arr[low + 1]? = some b →
      find_min_max (fuel + 1) arr low (low + 1) = .ok (min a b, max a b)) ∧
    find_min_max 1 [(5 : Int), 2] 0 1 = .ok (2, 5) ∧
    find_min_max 1 [(2 : Int), 5] 0 1 = .ok (2, 5) :=
  ⟨fun fuel arr low a b ha hb => fmm_pair fuel arr low a b ha hb,
   by rfl, by rfl⟩

/-- Concrete instance of `find_min_max_two_elements` on `[9, 4]`. -/
theorem find_min_max_two_elements_witness :
    find_min_max 1 [(9 : Int), 4] 0 1 = .ok (min 9 4, max 9 4) :=
  find_min_max_two_elements.1 0 [9, 4] 0 9 4 rfl rfl

/-- Claim C8: `find_min_max` is deterministic and stateless — any two calls
with identical sequence and range that return a pair return the same pair;
in the embedding the recursion budget is the only hidden parameter, and the
result does not depend on it. -/
theorem find_min_max_deterministic (arr : List Int) (fuel1 fuel2 low high : Nat)
    (p q : Int × Int)
    (h1 : find_min_max fuel1 arr low high = .ok p)
    (h2 : find_min_max fuel2 arr low high = .ok q) : p = q := by
  rcases le_total fuel1 fuel2 with hle | hle
  · have h := fmm_mono arr fuel1 fuel2 low high p hle h1
    rw [h] at h2
    exact Except.ok.inj h2
  · have h := fmm_mono arr fuel2 fuel1 low high q hle h2
    rw [h] at h1
    exact (Except.ok.inj h1).symm

/-- Concrete instance of `find_min_max_deterministic`: two calls with
different budgets agree on `[2, 5]`. -/
theorem find_min_max_deterministic_witness :
    find_min_max 1 [(2 : Int), 5] 0 1 = .ok (2, 5) ∧
    find_min_max 9 [(2 : Int), 5] 0 1 = .ok (2, 5) ∧
    ((2 : Int), (5 : Int)) = ((2 : Int), (5 : Int)) :=
  ⟨rfl, rfl, find_min_max_deterministic [2, 5] 1 9 0 1 (2, 5) (2, 5) rfl rfl⟩

/-- Claim C9: on a valid range of `n = high - low + 1` elements the recursion
terminates, and already a logarithmic recursion budget of
`Nat.clog 2 n + 1` levels returns a result — the recursion depth is
`O(log n)`, not `O(n)`. -/
theorem find_min_max_log_depth_termination (arr : List Int) (low high : Nat)
    (h1 : low ≤ high) (h2 : high < arr.length) :
    ∃ m M, find_min_max (Nat.clog 2 (high - low + 1) + 1) arr low high =
      .ok (m, M) := by
  have hfuel : high - low < 2 ^ Nat.clog 2 (high - low + 1) := by
    have := Nat.le_pow_clog (by norm_num : 1 < 2) (high - low + 1)
    omega
  obtain ⟨m, M, hrun, -, -, -⟩ :=
    fmm_ok_spec arr (Nat.clog 2 (high - low + 1)) low high h1 h2 hfuel
  exact ⟨m, M, hrun⟩

/-- Concrete instance of `find_min_max_log_depth_termination` on the
12-element demo array: budget `Nat.clog 2 12 + 1 = 5` suffices. -/
theorem find_min_max_log_depth_termination_witness :
    ∃ m M, find_min_max (Nat.clog 2 (11 - 0 + 1) + 1)
      [23, 1, 45, 12, 7, 89, 34, 2, 56, 78, 10, 5] 0 11 = .ok (m, M) :=
  find_min_max_log_depth_termination
    [23, 1, 45, 12, 7, 89, 34, 2, 56, 78, 10, 5] 0 11 (by decide) (by decide)

/-- Claim C10: under the precondition `low ≤ high ≤ length - 1` every index
access in the whole recursion tree stays within bounds — the embedding with
option-returning indexing never reaches its out-of-bounds branch, for any
recursion budget. -/
theorem find_min_max_no_out_of_bounds (arr : List Int) (fuel low high : Nat)
    (h1 : low ≤ high) (h2 : high < arr.length) :
    find_min_max fuel arr low high ≠ .error PyErr.indexError :=
  fmm_no_oob arr fuel low high h1 h2

/-- Concrete instance of `find_min_max_no_out_of_bounds`. -/
theorem find_min_max_no_out_of_bounds_witness :
    find_min_max 3 [(4 : Int)] 0 0 ≠ .error PyErr.indexError :=
  find_min_max_no_out_of_bounds [4] 3 0 0 (by decide) (by decide)
